import Mathlib

/-!
Habit streak engine of `src/game.js`.

A shallow embedding of the habit store and streak logic of `src/game.js`
(`checkNewDay`, `addHabit`, `toggleHabit`, `recalculateStreak`, `deleteHabit`,
`saveHabits`) together with theorems about them.

Modelling conventions.

* A calendar date (`'YYYY-MM-DD'` in the source) is its day number since
  1970-01-01, an `Int`; the default `Array.prototype.sort` on such strings
  (lexicographic, which for this fixed format and four-digit years is
  chronological) is sorting by `≤` on day numbers.
* `recalculateStreak` steps back one day with `new Date(s)`,
  `setDate(getDate() - 1)` and `toISOString()`: the string is read as midnight
  UTC, the day is changed in the host's local time, and the result is read back
  in UTC. This is embedded as it is written (`dateFromString`,
  `setDateToDayBefore`, `toISODate`), with the host's time zone rules as the
  parameter `tz`; only where the local offset does not change is the result
  the previous calendar day.
* The source reads the clock through `getTodayDate()` and `getYesterdayDate()`
  and the moment of creation through `Date.now()`; here these readings are
  explicit arguments (`today`, `yesterday`, `now`).
* The module-level `habits` array and the two `localStorage` keys are the three
  fields of `Store`. `JSON.stringify(habits)` is represented by the list itself.
* `currentStreak` is a natural number: the source only ever assigns `0`, `1`,
  a loop counter, or the previous value plus one.
* Rendering (`renderHabits`, `updateStats`, focus handling) does not touch the
  store and is left out; the answer of the `confirm` dialog of `deleteHabit`
  is an argument.
-/

namespace HabitTracker

/-- Record `{ id, name, completedDates, currentStreak }` of the source. -/
structure Habit where
  id : Int
  name : String
  completedDates : List Int
  currentStreak : Nat
deriving DecidableEq

/-- The in-memory `habits` array, the value under `STORAGE_KEY` (absent or the last
saved collection) and the value under `DATE_KEY` (absent or a date). -/
structure Store where
  habits : List Habit
  stored : Option (List Habit)
  lastCheck : Option Int
deriving DecidableEq

/-- Store of a first run: no habits, nothing in `localStorage`. -/
def Store.empty : Store := ⟨[], none, none⟩

/-- `saveHabits`: `localStorage.setItem(STORAGE_KEY, JSON.stringify(habits))`. -/
def saveHabits (s : Store) : Store :=
  { s with stored := some s.habits }

/-- Body of the `forEach` callback of `checkNewDay` for one habit. -/
def dailyRollover (yesterday : Int) (habit : Habit) : Habit :=
  let wasCompletedYesterday : Bool := decide (yesterday ∈ habit.completedDates)
  if !wasCompletedYesterday && decide (habit.currentStreak > 0) then
    { habit with currentStreak := 0 }
  else
    habit

/-- `checkNewDay`. -/
def checkNewDay (today yesterday : Int) (s : Store) : Store :=
  if s.lastCheck ≠ some today then
    saveHabits { s with habits := s.habits.map (dailyRollover yesterday), lastCheck := some today }
  else
    s

/-- White space and line terminators removed by `String.prototype.trim`. -/
def jsIsWhiteSpace (c : Char) : Bool :=
  let n := c.toNat
  n == 0x09 || n == 0x0A || n == 0x0B || n == 0x0C || n == 0x0D || n == 0x20 ||
  n == 0xA0 || n == 0x1680 || (0x2000 ≤ n && n ≤ 0x200A) || n == 0x2028 ||
  n == 0x2029 || n == 0x202F || n == 0x205F || n == 0x3000 || n == 0xFEFF

/-- `String.prototype.trim` on the list of characters. -/
def jsTrimChars (cs : List Char) : List Char :=
  ((cs.dropWhile jsIsWhiteSpace).reverse.dropWhile jsIsWhiteSpace).reverse

/-- `String.prototype.trim`. -/
def jsTrim (s : String) : String :=
  String.mk (jsTrimChars s.data)

/-- `addHabit`; `input` is `habitInput.value`, `now` is `Date.now()`. -/
def addHabit (now : Int) (input : String) (s : Store) : Store :=
  let name := jsTrim input
  if name = "" then s
  else
    let newHabit : Habit := { id := now, name := name, completedDates := [], currentStreak := 0 }
    saveHabits { s with habits := s.habits ++ [newHabit] }

/-- Time zone rules of the host, in milliseconds: `utcOffset t` is the local offset in force
at the UTC time value `t` (ECMAScript `LocalTZA(t, true)`), `localOffset t` the offset used
to read the local time value `t` (`LocalTZA(t, false)`). -/
structure TimeZone where
  utcOffset : Int → Int
  localOffset : Int → Int

/-- Milliseconds in a day. -/
def msPerDay : Int := 86400000

/-- `new Date('YYYY-MM-DD')`: the time value of midnight UTC of that day. -/
def dateFromString (day : Int) : Int :=
  day * msPerDay

/-- `date.setDate(date.getDate() - 1)`: the time value is taken to local time, moved back
one day with the time within the day kept, and taken back to UTC. -/
def setDateToDayBefore (tz : TimeZone) (tv : Int) : Int :=
  let t := tv + tz.utcOffset tv
  let newDate := t - msPerDay
  newDate - tz.localOffset newDate

/-- `date.toISOString().split('T')[0]`: the UTC day of a time value. -/
def toISODate (tv : Int) : Int :=
  tv / msPerDay

/-- `expectedDate.toISOString().split('T')[0]` of the loop of `recalculateStreak`, for the
anchor `currentDate = new Date(day)`. -/
def expectedDate (tz : TimeZone) (currentDate : Int) : Int :=
  toISODate (setDateToDayBefore tz (dateFromString currentDate))

/-- A host on UTC. -/
def utc : TimeZone := ⟨fun _ => 0, fun _ => 0⟩

/-- A host in America/New_York with the rules of 2024: daylight time (UTC-4) from
2024-03-10 07:00 UTC to 2024-11-03 06:00 UTC, standard time (UTC-5) otherwise; a local time
is read as daylight time from 03:00 on 10 March up to 02:00 on 3 November. -/
def newYork2024 : TimeZone :=
  ⟨fun t => if 1710054000000 ≤ t ∧ t < 1730613600000 then -14400000 else -18000000,
   fun t => if 1710039600000 ≤ t ∧ t < 1730599200000 then -14400000 else -18000000⟩

/-- A host in Europe/Berlin with the rules of 2024: summer time (UTC+2) from
2024-03-31 01:00 UTC to 2024-10-27 01:00 UTC, standard time (UTC+1) otherwise; a local time
is read as summer time from 03:00 on 31 March up to 03:00 on 27 October. -/
def berlin2024 : TimeZone :=
  ⟨fun t => if 1711846800000 ≤ t ∧ t < 1729990800000 then 7200000 else 3600000,
   fun t => if 1711854000000 ≤ t ∧ t < 1729998000000 then 7200000 else 3600000⟩

/-- The day step of `recalculateStreak` on this host is the previous calendar day. -/
def CalendarExact (tz : TimeZone) : Prop :=
  ∀ day : Int, expectedDate tz day = day - 1

/-- The `for` loop of `recalculateStreak`, on `datesToCheck` read from its end:
`ds` is the part not yet visited (latest first), `currentDate` the anchor. -/
def walkBack (tz : TimeZone) : List Int → Int → Nat → Nat
  | [], _, streak => streak
  | d :: ds, currentDate, streak =>
    if d = expectedDate tz currentDate then walkBack tz ds d (streak + 1) else streak

/-- `recalculateStreak`; `sort()` sorts `habit.completedDates` in place. -/
def recalculateStreak (tz : TimeZone) (today : Int) (habit : Habit) : Habit :=
  let sortedDates := habit.completedDates.insertionSort (· ≤ ·)
  if sortedDates.length = 0 then
    { habit with completedDates := sortedDates, currentStreak := 0 }
  else
    let datesToCheck := sortedDates.filter (fun d => d ≠ today)
    { habit with completedDates := sortedDates,
                 currentStreak := walkBack tz datesToCheck.reverse today 0 }

/-- Lines 117-136 of `toggleHabit`: what happens to the habit that was found. -/
def toggleCompletion (tz : TimeZone) (today yesterday : Int) (habit : Habit) : Habit :=
  let isCompleted : Bool := decide (today ∈ habit.completedDates)
  if isCompleted then
    recalculateStreak tz today
      { habit with completedDates := habit.completedDates.filter (fun d => d ≠ today) }
  else
    let pushed : Habit := { habit with completedDates := habit.completedDates ++ [today] }
    if yesterday ∈ pushed.completedDates then
      { pushed with currentStreak := pushed.currentStreak + 1 }
    else
      { pushed with currentStreak := 1 }

/-- In-place update of the object returned by `habits.find(h => h.id === id)`:
the first habit with that id is toggled, all others stay. -/
def toggleFound (tz : TimeZone) (id : Int) (today yesterday : Int) : List Habit → List Habit
  | [] => []
  | h :: hs =>
    if h.id = id then toggleCompletion tz today yesterday h :: hs
    else h :: toggleFound tz id today yesterday hs

/-- `toggleHabit`. -/
def toggleHabit (tz : TimeZone) (id : Int) (today yesterday : Int) (s : Store) : Store :=
  match s.habits.find? (fun h => decide (h.id = id)) with
  | none => s
  | some _ => saveHabits { s with habits := toggleFound tz id today yesterday s.habits }

/-- `deleteHabit`; `confirmed` is the answer of the `confirm` dialog. -/
def deleteHabit (id : Int) (confirmed : Bool) (s : Store) : Store :=
  if !confirmed then s
  else saveHabits { s with habits := s.habits.filter (fun h => decide (h.id ≠ id)) }

/-! ## Sequences of operations -/

/-- One call into the store: `addHabit`, `toggleHabit`, `deleteHabit` or `checkNewDay`,
with the clock readings it makes. -/
inductive Op where
  | add (now : Int) (input : String)
  | toggle (id : Int) (today : Int)
  | delete (id : Int) (confirmed : Bool)
  | newDay (today : Int)
deriving DecidableEq

/-- Effect of one call; `yesterday` is the day before `today`. -/
def step (tz : TimeZone) (s : Store) : Op → Store
  | .add now input => addHabit now input s
  | .toggle id today => toggleHabit tz id today (today - 1) s
  | .delete id confirmed => deleteHabit id confirmed s
  | .newDay today => checkNewDay today (today - 1) s

/-- Effect of a sequence of calls, first call first. -/
def run (tz : TimeZone) (s : Store) (ops : List Op) : Store :=
  ops.foldl (step tz) s

/-- The `today` a call is made with, for the calls that read the date. -/
def Op.day : Op → Option Int
  | .add _ _ => none
  | .toggle _ today => some today
  | .delete _ _ => none
  | .newDay today => some today

/-- In the sequence of calls `today` never decreases. -/
def DaysNondecreasing (ops : List Op) : Prop :=
  (ops.filterMap Op.day).Pairwise (· ≤ ·)

/-- The `today` of the most recent call that read the date. -/
def lastDay (ops : List Op) : Option Int :=
  (ops.filterMap Op.day).getLast?

/-- Every `toggleHabit` is made on the day recorded by the last-checked marker `m`, that
is after `checkNewDay` has run tz for that day, and the days of `checkNewDay` never decrease. -/
def Disciplined : Option Int → List Op → Prop
  | _, [] => True
  | m, .add _ _ :: ops => Disciplined m ops
  | m, .delete _ _ :: ops => Disciplined m ops
  | m, .toggle _ today :: ops => m = some today ∧ Disciplined m ops
  | m, .newDay today :: ops => (∀ t, m = some t → t ≤ today) ∧ Disciplined (some today) ops

/-- The day a streak is counted back from: `today` if it is completed, else the day before. -/
def streakAnchor (dates : List Int) (today : Int) : Int :=
  if today ∈ dates then today else today - 1

/-- The number `k` is the number of consecutive calendar days ending at `last` that are all
in `dates`: the `k` days `last, last - 1, …` are present and the next earlier one is not. -/
def IsRunLength (dates : List Int) (last : Int) (k : Nat) : Prop :=
  (∀ j : Nat, j < k → last - (j : Int) ∈ dates) ∧ last - (k : Int) ∉ dates

/-- The cached `currentStreak` is the streak determined by `completedDates` and `today`. -/
def NoDrift (habit : Habit) (today : Int) : Prop :=
  IsRunLength habit.completedDates (streakAnchor habit.completedDates today) habit.currentStreak

/-- What holds of every habit between calls when toggles follow the day's `checkNewDay`. -/
def Settled (m : Option Int) (habit : Habit) : Prop :=
  habit.completedDates.Nodup ∧
  match m with
  | none => habit.completedDates = [] ∧ habit.currentStreak = 0
  | some t => (∀ d ∈ habit.completedDates, d ≤ t) ∧ NoDrift habit t

/-! ## The day step -/

/-- With one fixed offset the day step of `recalculateStreak` is the previous calendar day. -/
theorem calendarExact_of_fixed (c : Int) : CalendarExact ⟨fun _ => c, fun _ => c⟩ := by
  intro day
  unfold expectedDate toISODate setDateToDayBefore dateFromString msPerDay
  simp only
  omega

theorem calendarExact_utc : CalendarExact utc :=
  calendarExact_of_fixed 0

/-! ## The backward walk of `recalculateStreak` -/

theorem walkBack_acc {tz : TimeZone} (ds : List Int) (c : Int) (n : Nat) :
    walkBack tz ds c n = n + walkBack tz ds c 0 := by
  induction ds generalizing c n with
  | nil => simp [walkBack]
  | cons d ds ih =>
    simp only [walkBack]
    split
    · rw [ih d (n + 1), ih d (0 + 1)]; omega
    · rfl

/-- Where the day step is the previous calendar day: on a strictly descending list lying
below the anchor, the walk counts exactly the days `c - 1, c - 2, …` that are present, and
stops at the first absent one. -/
theorem walkBack_run {tz : TimeZone} (hcal : CalendarExact tz) (ds : List Int) (c : Int)
    (hs : ds.Pairwise (fun a b => b < a)) (hlt : ∀ d ∈ ds, d < c) :
    (∀ j : Nat, 1 ≤ j → j ≤ walkBack tz ds c 0 → c - (j : Int) ∈ ds) ∧
      c - ((walkBack tz ds c 0 : Nat) + 1 : Int) ∉ ds := by
  induction ds generalizing c with
  | nil => simp [walkBack]; omega
  | cons d ds ih =>
    rw [List.pairwise_cons] at hs
    obtain ⟨hd, hs⟩ := hs
    have hdc : d < c := hlt d (List.mem_cons_self _ _)
    simp only [walkBack, hcal c]
    split
    · rename_i hdeq
      obtain ⟨ih1, ih2⟩ := ih d hs hd
      rw [walkBack_acc ds d (0 + 1)]
      constructor
      · intro j hj1 hjk
        by_cases hj : j = 1
        · subst hj; simp [hdeq]
        · have h3 := ih1 (j - 1) (by omega) (by omega)
          have h4 : c - (j : Int) = d - ((j - 1 : Nat) : Int) := by omega
          rw [h4]; exact List.mem_cons_of_mem _ h3
      · intro hmem
        have h4 : c - (((0 + 1 + walkBack tz ds d 0 : Nat) : Int) + 1)
            = d - ((walkBack tz ds d 0 : Nat) + 1 : Int) := by push_cast; omega
        rw [h4] at hmem
        rcases List.mem_cons.1 hmem with h | h
        · omega
        · exact ih2 h
    · rename_i hdne
      constructor
      · intro j hj1 hj0; omega
      · intro hmem
        simp only [CharP.cast_eq_zero, zero_add] at hmem
        rcases List.mem_cons.1 hmem with h | h
        · exact hdne h.symm
        · have := hd _ h; omega

theorem walkBack_head_ne {tz : TimeZone} (d : Int) (ds : List Int) (c : Int)
    (h : d ≠ expectedDate tz c) : walkBack tz (d :: ds) c 0 = 0 := by
  simp [walkBack, h]

/-- The list visited by the loop of `recalculateStreak`, latest date first. -/
theorem visited_descending (dates : List Int) (today : Int) (hnd : dates.Nodup) :
    (((dates.insertionSort (· ≤ ·)).filter (fun d => d ≠ today)).reverse).Pairwise
      (fun a b => b < a) := by
  rw [List.pairwise_reverse]
  apply List.Pairwise.filter
  have hs : (dates.insertionSort (· ≤ ·)).Sorted (· ≤ ·) := List.sorted_insertionSort _ _
  have hn : (dates.insertionSort (· ≤ ·)).Nodup :=
    (List.perm_insertionSort _ dates).nodup_iff.2 hnd
  exact (hs.lt_of_le hn)

theorem mem_visited (dates : List Int) (today d : Int) :
    d ∈ ((dates.insertionSort (· ≤ ·)).filter (fun d => d ≠ today)).reverse ↔
      d ∈ dates ∧ d ≠ today := by
  simp [List.mem_insertionSort]

theorem recalculateStreak_streak {tz : TimeZone} (today : Int) (habit : Habit) :
    (recalculateStreak tz today habit).currentStreak =
      walkBack tz ((habit.completedDates.insertionSort (· ≤ ·)).filter
        (fun d => d ≠ today)).reverse today 0 := by
  unfold recalculateStreak
  simp only
  split
  · rename_i h
    rw [List.length_eq_zero] at h
    simp [h, walkBack]
  · rfl

theorem recalculateStreak_dates {tz : TimeZone} (today : Int) (habit : Habit) :
    (recalculateStreak tz today habit).completedDates =
      habit.completedDates.insertionSort (· ≤ ·) := by
  unfold recalculateStreak
  simp only
  split <;> rfl

/-! ## Toggling -/

theorem toggleCompletion_absent {tz : TimeZone} (today yesterday : Int) (habit : Habit)
    (h : today ∉ habit.completedDates) :
    toggleCompletion tz today yesterday habit =
      { habit with
        completedDates := habit.completedDates ++ [today],
        currentStreak :=
          if yesterday ∈ habit.completedDates ++ [today] then habit.currentStreak + 1 else 1 } := by
  unfold toggleCompletion
  simp only [h, decide_False, Bool.false_eq_true, if_false]
  split <;> rfl

theorem toggleCompletion_present {tz : TimeZone} (today yesterday : Int) (habit : Habit)
    (h : today ∈ habit.completedDates) :
    toggleCompletion tz today yesterday habit =
      recalculateStreak tz today
        { habit with completedDates := habit.completedDates.filter (fun d => d ≠ today) } := by
  unfold toggleCompletion
  simp [h]

theorem recalculateStreak_id {tz : TimeZone} (today : Int) (habit : Habit) :
    (recalculateStreak tz today habit).id = habit.id := by
  unfold recalculateStreak
  simp only
  split <;> rfl

theorem recalculateStreak_name {tz : TimeZone} (today : Int) (habit : Habit) :
    (recalculateStreak tz today habit).name = habit.name := by
  unfold recalculateStreak
  simp only
  split <;> rfl

theorem filter_ne_append_self (dates : List Int) (today : Int) (h : today ∉ dates) :
    (dates ++ [today]).filter (fun d => d ≠ today) = dates := by
  rw [List.filter_append]
  have h1 : dates.filter (fun d => d ≠ today) = dates := by
    rw [List.filter_eq_self]
    intro d hd
    have : d ≠ today := fun e => h (e ▸ hd)
    simpa using this
  rw [h1]
  simp

theorem mem_toggleCompletion_dates {tz : TimeZone} (today yesterday : Int) (habit : Habit) (d : Int) :
    d ∈ (toggleCompletion tz today yesterday habit).completedDates ↔
      (d ∈ habit.completedDates ∧ d ≠ today) ∨ (d = today ∧ today ∉ habit.completedDates) := by
  by_cases h : today ∈ habit.completedDates
  · rw [toggleCompletion_present _ _ _ h, recalculateStreak_dates, List.mem_insertionSort]
    simp [List.mem_filter, h]
  · rw [toggleCompletion_absent _ _ _ h]
    simp only [List.mem_append, List.mem_singleton]
    constructor
    · rintro (h1 | h1)
      · exact Or.inl ⟨h1, fun e => h (e ▸ h1)⟩
      · exact Or.inr ⟨h1, h⟩
    · rintro (h1 | h1)
      · exact Or.inl h1.1
      · exact Or.inr h1.1


theorem toggleCompletion_id {tz : TimeZone} (today yesterday : Int) (habit : Habit) :
    (toggleCompletion tz today yesterday habit).id = habit.id := by
  by_cases h : today ∈ habit.completedDates
  · rw [toggleCompletion_present _ _ _ h, recalculateStreak_id]
  · rw [toggleCompletion_absent _ _ _ h]

theorem toggleFound_split {tz : TimeZone} (id today yesterday : Int) (pre post : List Habit) (habit : Habit)
    (hpre : ∀ x ∈ pre, x.id ≠ id) (hid : habit.id = id) :
    toggleFound tz id today yesterday (pre ++ habit :: post) =
      pre ++ toggleCompletion tz today yesterday habit :: post := by
  induction pre with
  | nil => simp [toggleFound, hid]
  | cons a l ih =>
    have ha : a.id ≠ id := hpre a (List.mem_cons_self _ _)
    have ih2 := ih (fun x hx => hpre x (List.mem_cons_of_mem _ hx))
    show toggleFound tz id today yesterday (a :: (l ++ habit :: post)) = _
    rw [toggleFound, if_neg ha, ih2]
    rfl

/-- The habit found by `toggleHabit` is the first one with the id; it is replaced by its
toggled version, the store is saved, everything else stays. -/
theorem toggleHabit_found {tz : TimeZone} (id today yesterday : Int) (s : Store) (pre post : List Habit)
    (habit : Habit) (hs : s.habits = pre ++ habit :: post)
    (hpre : ∀ x ∈ pre, x.id ≠ id) (hid : habit.id = id) :
    toggleHabit tz id today yesterday s =
      { habits := pre ++ toggleCompletion tz today yesterday habit :: post,
        stored := some (pre ++ toggleCompletion tz today yesterday habit :: post),
        lastCheck := s.lastCheck } := by
  unfold toggleHabit saveHabits
  have hfind : s.habits.find? (fun h => decide (h.id = id)) ≠ none := by
    rw [Ne, List.find?_eq_none]
    intro hall
    have := hall habit (by rw [hs]; simp)
    simp [hid] at this
  split
  · rename_i hnone; exact absurd hnone hfind
  · simp only
    rw [hs, toggleFound_split id today yesterday pre post habit hpre hid]

/-! ## Trimming -/

theorem jsTrimChars_decompose (cs : List Char) :
    cs = cs.takeWhile jsIsWhiteSpace ++ jsTrimChars cs ++
      (((cs.dropWhile jsIsWhiteSpace).reverse.takeWhile jsIsWhiteSpace).reverse) := by
  unfold jsTrimChars
  rw [List.append_assoc, ← List.reverse_append, List.takeWhile_append_dropWhile,
    List.reverse_reverse, List.takeWhile_append_dropWhile]

theorem head_dropWhile_not (p : Char → Bool) (cs : List Char) (c : Char)
    (h : (cs.dropWhile p).head? = some c) : p c = false := by
  induction cs with
  | nil => simp at h
  | cons a cs ih =>
    rw [List.dropWhile_cons] at h
    split at h
    · exact ih h
    · rename_i hpa
      simp only [List.head?_cons, Option.some.injEq] at h
      rw [← h]; simpa using hpa

theorem dropWhile_eq_nil_of_all (p : Char → Bool) (cs : List Char) :
    cs.dropWhile p = [] ↔ ∀ c ∈ cs, p c = true := by
  induction cs with
  | nil => simp
  | cons a cs ih =>
    rw [List.dropWhile_cons]
    split
    · rename_i hpa
      rw [ih]; simp [hpa]
    · rename_i hpa
      simp [hpa]

theorem jsTrimChars_eq_nil (cs : List Char) :
    jsTrimChars cs = [] ↔ ∀ c ∈ cs, jsIsWhiteSpace c = true := by
  unfold jsTrimChars
  rw [List.reverse_eq_nil_iff, dropWhile_eq_nil_of_all]
  constructor
  · intro h
    have h2 : cs.dropWhile jsIsWhiteSpace = [] := by
      by_contra hne
      obtain ⟨c, hc⟩ : ∃ c, (cs.dropWhile jsIsWhiteSpace).head? = some c := by
        cases hd : cs.dropWhile jsIsWhiteSpace with
        | nil => exact absurd hd hne
        | cons a l => exact ⟨a, rfl⟩
      have h3 := head_dropWhile_not _ _ _ hc
      have h4 : c ∈ (cs.dropWhile jsIsWhiteSpace).reverse :=
        List.mem_reverse.2 (List.mem_of_mem_head? hc)
      rw [h _ h4] at h3
      exact Bool.noConfusion h3
    exact (dropWhile_eq_nil_of_all _ _).1 h2
  · intro h c hc
    exact h c ((List.dropWhile_sublist _).subset (List.mem_reverse.1 hc))

theorem jsTrimChars_head (cs : List Char) (c : Char)
    (h : (jsTrimChars cs).head? = some c) : jsIsWhiteSpace c = false := by
  apply head_dropWhile_not jsIsWhiteSpace cs
  have hd := jsTrimChars_decompose cs
  have h2 : cs.dropWhile jsIsWhiteSpace = jsTrimChars cs ++
      (((cs.dropWhile jsIsWhiteSpace).reverse.takeWhile jsIsWhiteSpace).reverse) := by
    unfold jsTrimChars
    rw [← List.reverse_append, List.takeWhile_append_dropWhile, List.reverse_reverse]
  rw [h2]
  cases ht : jsTrimChars cs with
  | nil => rw [ht] at h; simp at h
  | cons a l => rw [ht] at h; simpa using h

theorem jsTrimChars_getLast (cs : List Char) (c : Char)
    (h : (jsTrimChars cs).getLast? = some c) : jsIsWhiteSpace c = false := by
  unfold jsTrimChars at h
  rw [List.getLast?_reverse] at h
  exact head_dropWhile_not _ _ _ h

theorem jsTrim_eq_empty (input : String) :
    jsTrim input = "" ↔ ∀ c ∈ input.data, jsIsWhiteSpace c = true := by
  rw [← jsTrimChars_eq_nil]
  unfold jsTrim
  constructor
  · intro h
    have := congrArg String.data h
    simpa using this
  · intro h
    rw [h]

/-! ## The store operations -/

theorem toggleFound_of_not_mem {tz : TimeZone} (id : Int) (today yesterday : Int) (hs : List Habit)
    (h : ∀ x ∈ hs, x.id ≠ id) : toggleFound tz id today yesterday hs = hs := by
  induction hs with
  | nil => rfl
  | cons a l ih =>
    have ha : a.id ≠ id := h a (List.mem_cons_self _ _)
    simp only [toggleFound, if_neg ha]
    rw [ih (fun x hx => h x (List.mem_cons_of_mem _ hx))]

theorem checkNewDay_of_ne (today yesterday : Int) (s : Store) (h : s.lastCheck ≠ some today) :
    checkNewDay today yesterday s =
      { habits := s.habits.map (dailyRollover yesterday),
        stored := some (s.habits.map (dailyRollover yesterday)),
        lastCheck := some today } := by
  unfold checkNewDay saveHabits
  rw [if_pos h]

theorem checkNewDay_of_eq (today yesterday : Int) (s : Store) (h : s.lastCheck = some today) :
    checkNewDay today yesterday s = s := by
  unfold checkNewDay
  rw [if_neg (by simpa using h)]

theorem checkNewDay_lastCheck (today yesterday : Int) (s : Store) :
    (checkNewDay today yesterday s).lastCheck = some today := by
  by_cases h : s.lastCheck = some today
  · rw [checkNewDay_of_eq _ _ _ h, h]
  · rw [checkNewDay_of_ne _ _ _ h]

theorem dailyRollover_fields (yesterday : Int) (habit : Habit) :
    (dailyRollover yesterday habit).id = habit.id ∧
    (dailyRollover yesterday habit).name = habit.name ∧
    (dailyRollover yesterday habit).completedDates = habit.completedDates := by
  unfold dailyRollover
  simp only
  split <;> exact ⟨rfl, rfl, rfl⟩

theorem dailyRollover_streak (yesterday : Int) (habit : Habit) :
    (dailyRollover yesterday habit).currentStreak =
      if yesterday ∈ habit.completedDates then habit.currentStreak else 0 := by
  unfold dailyRollover
  by_cases hy : yesterday ∈ habit.completedDates
  · simp [hy]
  · by_cases h0 : habit.currentStreak = 0
    · simp [hy, h0]
    · have : 0 < habit.currentStreak := Nat.pos_of_ne_zero h0
      simp [hy, this]

/-! ## Preservation of the streak invariant -/

theorem settled_new (m : Option Int) (now : Int) (name : String) :
    Settled m ⟨now, name, [], 0⟩ := by
  refine ⟨List.nodup_nil, ?_⟩
  cases m with
  | none => exact ⟨rfl, rfl⟩
  | some t =>
    refine ⟨fun d hd => absurd hd (List.not_mem_nil _), ?_, ?_⟩
    · intro j hj; exact absurd hj (Nat.not_lt_zero _)
    · exact List.not_mem_nil _

theorem settled_toggle {tz : TimeZone} (hcal : CalendarExact tz) (t : Int) (habit : Habit)
    (hs : Settled (some t) habit) :
    Settled (some t) (toggleCompletion tz t (t - 1) habit) := by
  obtain ⟨hnd, hle, hrun⟩ := hs
  by_cases ht : t ∈ habit.completedDates
  · rw [toggleCompletion_present _ _ _ ht]
    have hnd2 : (habit.completedDates.filter (fun d => d ≠ t)).Nodup := hnd.filter _
    refine ⟨?_, ?_, ?_⟩
    · rw [recalculateStreak_dates]
      exact (List.perm_insertionSort _ _).nodup_iff.2 hnd2
    · intro d hd
      rw [recalculateStreak_dates, List.mem_insertionSort] at hd
      exact hle d (List.mem_filter.1 hd).1
    · have hmem := mem_visited (habit.completedDates.filter (fun d => d ≠ t)) t
      have hdesc := visited_descending (habit.completedDates.filter (fun d => d ≠ t)) t hnd2
      have hlt : ∀ d ∈ (((habit.completedDates.filter (fun d => d ≠ t)).insertionSort
          (· ≤ ·)).filter (fun d => d ≠ t)).reverse, d < t := by
        intro d hd
        have h1 := (hmem d).1 hd
        have := hle d (List.mem_filter.1 h1.1).1
        have := h1.2
        omega
      obtain ⟨w1, w2⟩ := walkBack_run hcal _ t hdesc hlt
      have hdates : ∀ d, d ∈ (recalculateStreak tz t { habit with
          completedDates := habit.completedDates.filter (fun d => d ≠ t) }).completedDates ↔
          d ∈ habit.completedDates ∧ d ≠ t := by
        intro d
        rw [recalculateStreak_dates, List.mem_insertionSort]
        simp [List.mem_filter]
      have hvis : ∀ d, d ∈ (((habit.completedDates.filter (fun d => d ≠ t)).insertionSort
          (· ≤ ·)).filter (fun d => d ≠ t)).reverse ↔ d ∈ habit.completedDates ∧ d ≠ t := by
        intro d
        rw [hmem]
        simp [List.mem_filter]
      unfold NoDrift IsRunLength streakAnchor
      rw [if_neg (fun hc => ((hdates t).1 hc).2 rfl), recalculateStreak_streak]
      simp only [hdates]
      constructor
      · intro j hj
        have h1 := w1 (j + 1) (by omega) (by omega)
        rw [hvis] at h1
        have h2 : t - 1 - (j : Int) = t - ((j + 1 : Nat) : Int) := by push_cast; omega
        rw [h2]; exact h1
      · intro hc
        apply w2
        rw [hvis]
        have h2 : t - ((walkBack tz (((habit.completedDates.filter (fun d => d ≠ t)).insertionSort
            (· ≤ ·)).filter (fun d => d ≠ t)).reverse t 0 : Nat) + 1 : Int) =
            t - 1 - ((walkBack tz (((habit.completedDates.filter (fun d => d ≠ t)).insertionSort
            (· ≤ ·)).filter (fun d => d ≠ t)).reverse t 0 : Nat) : Int) := by omega
        rw [h2]; exact hc
  · rw [toggleCompletion_absent _ _ _ ht]
    unfold NoDrift IsRunLength streakAnchor at hrun
    rw [if_neg ht] at hrun
    obtain ⟨r1, r2⟩ := hrun
    refine ⟨?_, ?_, ?_⟩
    · simp only
      rw [List.nodup_append]
      refine ⟨hnd, by simp, ?_⟩
      intro a ha hb
      rw [List.mem_singleton] at hb
      exact ht (hb ▸ ha)
    · intro d hd
      simp only [List.mem_append, List.mem_singleton] at hd
      rcases hd with hd | hd
      · exact hle d hd
      · omega
    · unfold NoDrift IsRunLength streakAnchor
      simp only [List.mem_append, List.mem_singleton, or_true, if_true]
      by_cases hy : t - 1 ∈ habit.completedDates
      · rw [if_pos (Or.inl hy)]
        constructor
        · intro j hj
          by_cases hj0 : j = 0
          · subst hj0; right; simp
          · left
            have h1 := r1 (j - 1) (by omega)
            have h2 : t - (j : Int) = t - 1 - ((j - 1 : Nat) : Int) := by omega
            rw [h2]; exact h1
        · rintro (hc | hc)
          · apply r2
            have h2 : t - 1 - (habit.currentStreak : Int) =
                t - ((habit.currentStreak + 1 : Nat) : Int) := by push_cast; omega
            rw [h2]; exact hc
          · push_cast at hc; omega
      · have hne : ¬ (t - 1 ∈ habit.completedDates ∨ t - 1 = t) := by
          rintro (hc | hc)
          · exact hy hc
          · omega
        rw [if_neg hne]
        constructor
        · intro j hj
          have hj0 : j = 0 := by omega
          subst hj0; right; simp
        · rintro (hc | hc)
          · apply hy; simpa using hc
          · simp at hc

theorem settled_rollover (m : Option Int) (t : Int) (habit : Habit) (hs : Settled m habit)
    (hlt : ∀ u, m = some u → u < t) :
    Settled (some t) (dailyRollover (t - 1) habit) := by
  obtain ⟨hnd, hm⟩ := hs
  obtain ⟨-, -, e3⟩ := dailyRollover_fields (t - 1) habit
  refine ⟨by rw [e3]; exact hnd, ?_⟩
  cases m with
  | none =>
    obtain ⟨h1, h2⟩ := hm
    simp only
    refine ⟨?_, ?_⟩
    · intro d hd; rw [e3, h1] at hd; exact absurd hd (List.not_mem_nil _)
    · unfold NoDrift IsRunLength
      rw [e3, dailyRollover_streak, h1]
      simp
  | some u =>
    obtain ⟨h1, h2⟩ := hm
    have hut : u < t := hlt u rfl
    have htn : t ∉ habit.completedDates := fun hc => by have := h1 t hc; omega
    simp only
    refine ⟨?_, ?_⟩
    · intro d hd; rw [e3] at hd; have := h1 d hd; omega
    · unfold NoDrift IsRunLength streakAnchor
      rw [e3, dailyRollover_streak, if_neg htn]
      by_cases hy : t - 1 ∈ habit.completedDates
      · rw [if_pos hy]
        have hu : t - 1 = u := by have := h1 _ hy; omega
        unfold NoDrift IsRunLength streakAnchor at h2
        rw [hu] at hy ⊢
        rw [if_pos hy] at h2
        exact h2
      · rw [if_neg hy]
        refine ⟨fun j hj => absurd hj (Nat.not_lt_zero _), ?_⟩
        simpa using hy

theorem mem_toggleFound {tz : TimeZone} (id : Int) (today yesterday : Int) (hs : List Habit) (x : Habit)
    (hx : x ∈ toggleFound tz id today yesterday hs) :
    x ∈ hs ∨ ∃ h ∈ hs, x = toggleCompletion tz today yesterday h := by
  induction hs with
  | nil => simp [toggleFound] at hx
  | cons a l ih =>
    simp only [toggleFound] at hx
    split at hx
    · rcases List.mem_cons.1 hx with h1 | h1
      · exact Or.inr ⟨a, List.mem_cons_self _ _, h1⟩
      · exact Or.inl (List.mem_cons_of_mem _ h1)
    · rcases List.mem_cons.1 hx with h1 | h1
      · exact Or.inl (h1 ▸ List.mem_cons_self _ _)
      · rcases ih h1 with h2 | ⟨h, hh, he⟩
        · exact Or.inl (List.mem_cons_of_mem _ h2)
        · exact Or.inr ⟨h, List.mem_cons_of_mem _ hh, he⟩

theorem toggleHabit_lastCheck {tz : TimeZone} (id today yesterday : Int) (s : Store) :
    (toggleHabit tz id today yesterday s).lastCheck = s.lastCheck := by
  unfold toggleHabit saveHabits
  split <;> rfl

theorem mem_toggleHabit {tz : TimeZone} (id today yesterday : Int) (s : Store) (x : Habit)
    (hx : x ∈ (toggleHabit tz id today yesterday s).habits) :
    x ∈ s.habits ∨ ∃ h ∈ s.habits, x = toggleCompletion tz today yesterday h := by
  unfold toggleHabit saveHabits at hx
  split at hx
  · exact Or.inl hx
  · exact mem_toggleFound _ _ _ _ _ hx

theorem addHabit_lastCheck (now : Int) (input : String) (s : Store) :
    (addHabit now input s).lastCheck = s.lastCheck := by
  unfold addHabit saveHabits
  simp only
  split <;> rfl

theorem mem_addHabit (now : Int) (input : String) (s : Store) (x : Habit)
    (hx : x ∈ (addHabit now input s).habits) :
    x ∈ s.habits ∨ x = ⟨now, jsTrim input, [], 0⟩ := by
  unfold addHabit saveHabits at hx
  simp only at hx
  split at hx
  · exact Or.inl hx
  · simpa using hx

theorem deleteHabit_lastCheck (id : Int) (confirmed : Bool) (s : Store) :
    (deleteHabit id confirmed s).lastCheck = s.lastCheck := by
  unfold deleteHabit saveHabits
  split <;> rfl

theorem mem_deleteHabit (id : Int) (confirmed : Bool) (s : Store) (x : Habit)
    (hx : x ∈ (deleteHabit id confirmed s).habits) : x ∈ s.habits := by
  unfold deleteHabit saveHabits at hx
  split at hx
  · exact hx
  · exact (List.mem_filter.1 hx).1

theorem settled_step {tz : TimeZone} (hcal : CalendarExact tz) (s : Store) (op : Op)
    (ops : List Op)
    (hinv : ∀ h ∈ s.habits, Settled s.lastCheck h)
    (hd : Disciplined s.lastCheck (op :: ops)) :
    (∀ h ∈ (step tz s op).habits, Settled (step tz s op).lastCheck h) ∧
      Disciplined (step tz s op).lastCheck ops := by
  cases op with
  | add now input =>
    simp only [step, Disciplined, addHabit_lastCheck] at hd ⊢
    refine ⟨?_, hd⟩
    intro h hh
    rcases mem_addHabit _ _ _ _ hh with h1 | h1
    · exact hinv h h1
    · rw [h1]; exact settled_new _ _ _
  | delete id confirmed =>
    simp only [step, Disciplined, deleteHabit_lastCheck] at hd ⊢
    exact ⟨fun h hh => hinv h (mem_deleteHabit _ _ _ _ hh), hd⟩
  | toggle id today =>
    simp only [step, Disciplined, toggleHabit_lastCheck] at hd ⊢
    refine ⟨?_, hd.2⟩
    intro h hh
    rcases mem_toggleHabit _ _ _ _ _ hh with h1 | ⟨g, hg, he⟩
    · exact hinv h h1
    · have hg2 := hinv g hg
      rw [hd.1] at hg2 ⊢
      rw [he]
      exact settled_toggle hcal today g hg2
  | newDay today =>
    simp only [step, Disciplined, checkNewDay_lastCheck] at hd ⊢
    refine ⟨?_, hd.2⟩
    by_cases hm : s.lastCheck = some today
    · rw [checkNewDay_of_eq _ _ _ hm]
      intro h hh
      have := hinv h hh
      rwa [hm] at this
    · rw [checkNewDay_of_ne _ _ _ hm]
      intro h hh
      simp only [List.mem_map] at hh
      obtain ⟨g, hg, he⟩ := hh
      rw [← he]
      apply settled_rollover s.lastCheck today g (hinv g hg)
      intro u hu
      have h1 := hd.1 u hu
      have h2 : u ≠ today := fun e => hm (e ▸ hu)
      omega

theorem settled_run {tz : TimeZone} (hcal : CalendarExact tz) (ops : List Op) (s : Store)
    (hinv : ∀ h ∈ s.habits, Settled s.lastCheck h)
    (hd : Disciplined s.lastCheck ops) :
    ∀ h ∈ (run tz s ops).habits, Settled (run tz s ops).lastCheck h := by
  induction ops generalizing s with
  | nil => exact hinv
  | cons op ops ih =>
    obtain ⟨h1, h2⟩ := settled_step hcal s op ops hinv hd
    exact ih (step tz s op) h1 h2

theorem disciplined_days (ops : List Op) (m : Option Int) (hd : Disciplined m ops) :
    (∀ t, m = some t → ∀ d ∈ ops.filterMap Op.day, t ≤ d) ∧ DaysNondecreasing ops := by
  unfold DaysNondecreasing
  induction ops generalizing m with
  | nil => simp
  | cons op ops ih =>
    cases op with
    | add now input =>
      simp only [Disciplined] at hd
      simpa [Op.day] using ih m hd
    | delete id confirmed =>
      simp only [Disciplined] at hd
      simpa [Op.day] using ih m hd
    | toggle id today =>
      simp only [Disciplined] at hd
      obtain ⟨i1, i2⟩ := ih m hd.2
      have e : (Op.toggle id today :: ops).filterMap Op.day =
          today :: ops.filterMap Op.day := by simp [Op.day]
      rw [e]
      constructor
      · intro t ht d hdm
        rcases List.mem_cons.1 hdm with h1 | h1
        · have : t = today := by rw [hd.1] at ht; exact (Option.some.inj ht).symm
          omega
        · exact i1 t ht d h1
      · rw [List.pairwise_cons]
        exact ⟨fun d hdm => i1 today hd.1 d hdm, i2⟩
    | newDay today =>
      simp only [Disciplined] at hd
      obtain ⟨i1, i2⟩ := ih (some today) hd.2
      have e : (Op.newDay today :: ops).filterMap Op.day =
          today :: ops.filterMap Op.day := by simp [Op.day]
      rw [e]
      constructor
      · intro t ht d hdm
        have h0 := hd.1 t ht
        rcases List.mem_cons.1 hdm with h1 | h1
        · omega
        · have := i1 today rfl d h1; omega
      · rw [List.pairwise_cons]
        exact ⟨fun d hdm => i1 today rfl d hdm, i2⟩

theorem disciplined_lastCheck {tz : TimeZone} (ops : List Op) (s : Store) (hd : Disciplined s.lastCheck ops) :
    (run tz s ops).lastCheck =
      match lastDay ops with
      | some d => some d
      | none => s.lastCheck := by
  unfold lastDay
  induction ops generalizing s with
  | nil => rfl
  | cons op ops ih =>
    have hrun : run tz s (op :: ops) = run tz (step tz s op) ops := rfl
    rw [hrun]
    cases op with
    | add now input =>
      simp only [Disciplined] at hd
      have e : (step tz s (Op.add now input)).lastCheck = s.lastCheck := addHabit_lastCheck _ _ _
      rw [ih _ (e ▸ hd), e]
      simp [Op.day]
    | delete id confirmed =>
      simp only [Disciplined] at hd
      have e : (step tz s (Op.delete id confirmed)).lastCheck = s.lastCheck :=
        deleteHabit_lastCheck _ _ _
      rw [ih _ (e ▸ hd), e]
      simp [Op.day]
    | toggle id today =>
      simp only [Disciplined] at hd
      have e : (step tz s (Op.toggle id today)).lastCheck = s.lastCheck :=
        toggleHabit_lastCheck _ _ _ _
      rw [ih _ (e ▸ hd.2), e]
      have e2 : (Op.toggle id today :: ops).filterMap Op.day =
          today :: ops.filterMap Op.day := by simp [Op.day]
      rw [e2]
      cases hl : ops.filterMap Op.day with
      | nil => simpa using hd.1
      | cons a l => simp [List.getLast?_cons_cons]
    | newDay today =>
      simp only [Disciplined] at hd
      have e : (step tz s (Op.newDay today)).lastCheck = some today := checkNewDay_lastCheck _ _ _
      rw [ih _ (e ▸ hd.2), e]
      have e2 : (Op.newDay today :: ops).filterMap Op.day =
          today :: ops.filterMap Op.day := by simp [Op.day]
      rw [e2]
      cases hl : ops.filterMap Op.day with
      | nil => simp
      | cons a l =>
        rw [List.getLast?_cons_cons, List.getLast?_eq_getLast _ (List.cons_ne_nil a l)]

/-! ## Claims -/

/-- On a host whose day step is the previous calendar day: for duplicate-free
`completedDates`, `recalculateStreak` yields 0 when `completedDates` without `today` is
empty or its latest date is not `today - 1`, and otherwise yields the largest `k` with
`today - 1, …, today - k` all in `completedDates`. -/
theorem recalculateStreak_calendar_run (tz : TimeZone) (hcal : CalendarExact tz) (today : Int)
    (habit : Habit) (hnd : habit.completedDates.Nodup) :
    ((habit.completedDates.filter (fun d => d ≠ today) = [] ∨
        ¬ (today - 1 ∈ habit.completedDates.filter (fun d => d ≠ today) ∧
            ∀ d ∈ habit.completedDates.filter (fun d => d ≠ today), d ≤ today - 1)) →
      (recalculateStreak tz today habit).currentStreak = 0) ∧
    ((habit.completedDates.filter (fun d => d ≠ today) ≠ [] ∧
        today - 1 ∈ habit.completedDates.filter (fun d => d ≠ today) ∧
        ∀ d ∈ habit.completedDates.filter (fun d => d ≠ today), d ≤ today - 1) →
      (∀ j : Nat, 1 ≤ j → j ≤ (recalculateStreak tz today habit).currentStreak →
          today - (j : Int) ∈ habit.completedDates) ∧
      (∀ k : Nat, (∀ j : Nat, 1 ≤ j → j ≤ k → today - (j : Int) ∈ habit.completedDates) →
          k ≤ (recalculateStreak tz today habit).currentStreak)) := by
  rw [recalculateStreak_streak]
  have hdesc := visited_descending habit.completedDates today hnd
  have hmem := mem_visited habit.completedDates today
  constructor
  · intro h
    generalize hV : ((habit.completedDates.insertionSort (· ≤ ·)).filter
      (fun d => d ≠ today)).reverse = V at hdesc hmem
    cases V with
    | nil => rfl
    | cons d ds =>
      apply walkBack_head_ne
      rw [hcal today]
      intro hd
      have hdin : d ∈ habit.completedDates ∧ d ≠ today := (hmem d).1 (List.mem_cons_self _ _)
      rcases h with h | h
      · have : d ∈ habit.completedDates.filter (fun d => d ≠ today) := by
          simp [List.mem_filter, hdin.1, hdin.2]
        rw [h] at this
        exact absurd this (List.not_mem_nil _)
      · apply h
        constructor
        · rw [← hd]; simp [List.mem_filter, hdin.1, hdin.2]
        · intro e he
          rw [List.mem_filter] at he
          have he2 : e ∈ d :: ds := (hmem e).2 ⟨he.1, by simpa using he.2⟩
          rw [List.pairwise_cons] at hdesc
          rcases List.mem_cons.1 he2 with h1 | h1
          · omega
          · have := hdesc.1 e h1; omega
  · rintro ⟨-, -, hle⟩
    have hlt : ∀ d ∈ ((habit.completedDates.insertionSort (· ≤ ·)).filter
        (fun d => d ≠ today)).reverse, d < today := by
      intro d hd
      have h1 := (hmem d).1 hd
      have := hle d (by simp [List.mem_filter, h1.1, h1.2])
      omega
    obtain ⟨h1, h2⟩ := walkBack_run hcal _ today hdesc hlt
    constructor
    · intro j hj1 hjk
      exact ((hmem _).1 (h1 j hj1 hjk)).1
    · intro k hk
      by_contra hcon
      push_neg at hcon
      apply h2
      rw [hmem]
      constructor
      · have := hk (walkBack tz ((habit.completedDates.insertionSort (· ≤ ·)).filter
          (fun d => d ≠ today)).reverse today 0 + 1) (by omega) (by omega)
        simpa using this
      · omega

/-- C1, evaluated on a host in New York on 2024-11-04 (day 20031), the day after the
clocks went back, for a habit completed on 2024-11-02 and 2024-11-03: the day step from
2024-11-04 lands on 2024-11-02, so `recalculateStreak` yields 0, although the latest date
is `today - 1` and `today - 1`, `today - 2` are both completed, which makes the largest run 2.
On a host on UTC the same input yields 2. -/
theorem recalculateStreak_newYork_fall_back :
    expectedDate newYork2024 20031 = 20029 ∧
    (recalculateStreak newYork2024 20031 ⟨1, "read", [20029, 20030], 0⟩).currentStreak = 0 ∧
    [20029, (20030 : Int)].Nodup ∧
    (20031 - 1 ∈ [20029, (20030 : Int)].filter (fun d => d ≠ 20031) ∧
      ∀ d ∈ [20029, (20030 : Int)].filter (fun d => d ≠ 20031), d ≤ 20031 - 1) ∧
    ((20031 : Int) - 1 ∈ [20029, (20030 : Int)] ∧ (20031 : Int) - 2 ∈ [20029, (20030 : Int)]) ∧
    (recalculateStreak utc 20031 ⟨1, "read", [20029, 20030], 0⟩).currentStreak = 2 := by
  refine ⟨by decide, by decide, by decide, by decide, by decide, by decide⟩

/-- C3: forward toggle. When `today` is not in `completedDates`, the toggle appends `today`
and sets `currentStreak` to the previous value plus one if `yesterday` is in
`completedDates`, and to 1 otherwise; an empty habit ends with `[today]` and streak 1. -/
theorem toggleCompletion_forward (tz : TimeZone) (today yesterday : Int) (habit : Habit)
    (h : today ∉ habit.completedDates) :
    (toggleCompletion tz today yesterday habit).completedDates = habit.completedDates ++ [today] ∧
    (yesterday ∈ (toggleCompletion tz today yesterday habit).completedDates →
      (toggleCompletion tz today yesterday habit).currentStreak = habit.currentStreak + 1) ∧
    (yesterday ∉ (toggleCompletion tz today yesterday habit).completedDates →
      (toggleCompletion tz today yesterday habit).currentStreak = 1) ∧
    (yesterday ≠ today →
      (yesterday ∈ habit.completedDates →
        (toggleCompletion tz today yesterday habit).currentStreak = habit.currentStreak + 1) ∧
      (yesterday ∉ habit.completedDates →
        (toggleCompletion tz today yesterday habit).currentStreak = 1) ∧
      (habit.completedDates = [] →
        (toggleCompletion tz today yesterday habit).completedDates = [today] ∧
        (toggleCompletion tz today yesterday habit).currentStreak = 1)) := by
  rw [toggleCompletion_absent _ _ _ h]
  refine ⟨rfl, ?_, ?_, ?_⟩
  · intro hy; simp only at hy; simp only [if_pos hy]
  · intro hy; simp only at hy; simp only [if_neg hy]
  · intro hne
    refine ⟨?_, ?_, ?_⟩
    · intro hy; simp [hy]
    · intro hy; simp [hy, hne]
    · intro he; simp [he, hne]

/-- Scenario 1 of the spec (empty habit marked today) as an instance of C3. -/
theorem toggleCompletion_forward_witness :
    (toggleCompletion utc 10 9 ⟨1, "read", [], 0⟩).completedDates = [10] ∧
    (toggleCompletion utc 10 9 ⟨1, "read", [], 0⟩).currentStreak = 1 :=
  ((toggleCompletion_forward utc 10 9 ⟨1, "read", [], 0⟩ (by decide)).2.2.2 (by decide)).2.2 rfl

/-- C4: a toggle changes the set of completed dates by exactly the one entry `today`
(one more when it was absent, one fewer when it was present); the presence of every
other date is unchanged. For a duplicate-free list the length changes by exactly one too. -/
theorem toggleCompletion_frame (tz : TimeZone) (today yesterday : Int) (habit : Habit) :
    (today ∉ habit.completedDates →
      today ∈ (toggleCompletion tz today yesterday habit).completedDates ∧
      (toggleCompletion tz today yesterday habit).completedDates.toFinset.card =
        habit.completedDates.toFinset.card + 1 ∧
      (toggleCompletion tz today yesterday habit).completedDates.length =
        habit.completedDates.length + 1) ∧
    (today ∈ habit.completedDates →
      today ∉ (toggleCompletion tz today yesterday habit).completedDates ∧
      (toggleCompletion tz today yesterday habit).completedDates.toFinset.card + 1 =
        habit.completedDates.toFinset.card ∧
      (habit.completedDates.Nodup →
        (toggleCompletion tz today yesterday habit).completedDates.length + 1 =
          habit.completedDates.length)) ∧
    (∀ d : Int, d ≠ today →
      (d ∈ (toggleCompletion tz today yesterday habit).completedDates ↔
        d ∈ habit.completedDates)) ∧
    (habit.completedDates.Nodup →
      (toggleCompletion tz today yesterday habit).completedDates.Nodup) := by
  refine ⟨?_, ?_, ?_, ?_⟩
  · intro h
    rw [toggleCompletion_absent _ _ _ h]
    refine ⟨by simp, ?_, by simp⟩
    have hfin : (habit.completedDates ++ [today]).toFinset =
        insert today habit.completedDates.toFinset := by
      ext d
      simp [or_comm]
    simp only
    rw [hfin, Finset.card_insert_of_not_mem (by simpa using h)]
  · intro h
    rw [toggleCompletion_present _ _ _ h, recalculateStreak_dates]
    have hfin : ((habit.completedDates.filter (fun d => d ≠ today)).insertionSort
        (· ≤ ·)).toFinset = habit.completedDates.toFinset.erase today := by
      ext d
      simp [List.mem_insertionSort, List.mem_filter, and_comm]
    refine ⟨by simp [List.mem_insertionSort], ?_, ?_⟩
    · rw [hfin, Finset.card_erase_of_mem (by simpa using h)]
      have : 0 < habit.completedDates.toFinset.card :=
        Finset.card_pos.2 ⟨today, by simpa using h⟩
      omega
    · intro hnd
      rw [List.length_insertionSort]
      simp only
      have hc : habit.completedDates.count today = 1 := List.count_eq_one_of_mem hnd h
      have hl := List.length_eq_countP_add_countP (fun d => decide (d = today)) habit.completedDates
      have h1 : List.countP (fun d => decide (d = today)) habit.completedDates = 1 := by
        rw [← hc, List.count]; congr 1
      have h2 : List.countP (fun a => decide ¬(decide (a = today)) = true) habit.completedDates
          = (habit.completedDates.filter (fun d => d ≠ today)).length := by
        rw [List.countP_eq_length_filter]; congr 1
        apply List.filter_congr; intro d _; simp
      omega
  · intro d hd
    rw [mem_toggleCompletion_dates]
    constructor
    · rintro (h1 | h1)
      · exact h1.1
      · exact absurd h1.1 hd
    · intro h1; exact Or.inl ⟨h1, hd⟩
  · intro hnd
    by_cases h : today ∈ habit.completedDates
    · rw [toggleCompletion_present _ _ _ h, recalculateStreak_dates]
      exact (List.perm_insertionSort _ _).nodup_iff.2 (hnd.filter _)
    · rw [toggleCompletion_absent _ _ _ h]
      simp only
      rw [List.nodup_append]
      refine ⟨hnd, by simp, ?_⟩
      intro a ha hb
      rw [List.mem_singleton] at hb
      exact h (hb ▸ ha)

/-- Instances of C4: unmarking `10` in `[8, 10, 9]` and marking `10` in `[8, 9]`. -/
theorem toggleCompletion_frame_witness :
    ((toggleCompletion utc 10 9 ⟨1, "read", [8, 10, 9], 1⟩).completedDates = [8, 9] ∧
      (toggleCompletion utc 10 9 ⟨1, "read", [8, 10, 9], 1⟩).completedDates.length + 1 =
        [8, 10, (9 : Int)].length) ∧
    (toggleCompletion utc 10 9 ⟨1, "read", [8, 9], 2⟩).completedDates.length =
      [8, (9 : Int)].length + 1 :=
  ⟨⟨by decide,
    ((toggleCompletion_frame utc 10 9 ⟨1, "read", [8, 10, 9], 1⟩).2.1 (by decide)).2.2 (by decide)⟩,
   ((toggleCompletion_frame utc 10 9 ⟨1, "read", [8, 9], 2⟩).1 (by decide)).2.2⟩

/-- On every host: for a habit of the collection with `today` not in its `completedDates`,
`toggleHabit` applied twice in a row with the same `today` and `yesterday` changes only that
habit; its dates are the original ones again (as a set, and even as a multiset) and its
`currentStreak` is what the code of `recalculateStreak` yields on the original
`completedDates`, whatever `currentStreak` was before. -/
theorem toggleHabit_twice (tz : TimeZone) (id today yesterday : Int) (s : Store)
    (pre post : List Habit) (habit : Habit) (hs : s.habits = pre ++ habit :: post)
    (hpre : ∀ x ∈ pre, x.id ≠ id) (hid : habit.id = id)
    (h : today ∉ habit.completedDates) :
    (toggleHabit tz id today yesterday (toggleHabit tz id today yesterday s)).habits =
      pre ++ toggleCompletion tz today yesterday (toggleCompletion tz today yesterday habit) :: post ∧
    (∀ d : Int, d ∈ (toggleCompletion tz today yesterday
        (toggleCompletion tz today yesterday habit)).completedDates ↔ d ∈ habit.completedDates) ∧
    List.Perm (toggleCompletion tz today yesterday
        (toggleCompletion tz today yesterday habit)).completedDates habit.completedDates ∧
    (toggleCompletion tz today yesterday (toggleCompletion tz today yesterday habit)).currentStreak =
      (recalculateStreak tz today habit).currentStreak ∧
    (toggleCompletion tz today yesterday (toggleCompletion tz today yesterday habit)).id = habit.id ∧
    (toggleCompletion tz today yesterday (toggleCompletion tz today yesterday habit)).name =
      habit.name := by
  constructor
  · rw [toggleHabit_found id today yesterday s pre post habit hs hpre hid]
    rw [toggleHabit_found id today yesterday _ pre post (toggleCompletion tz today yesterday habit)
      rfl hpre ((toggleCompletion_id today yesterday habit).trans hid)]
  have h1 : today ∈ (toggleCompletion tz today yesterday habit).completedDates := by
    rw [toggleCompletion_absent _ _ _ h]; simp
  rw [toggleCompletion_present _ _ _ h1, toggleCompletion_absent _ _ _ h]
  simp only [filter_ne_append_self _ _ h]
  refine ⟨?_, ?_, ?_, ?_, ?_⟩
  · intro d; rw [recalculateStreak_dates]; simp [List.mem_insertionSort]
  · rw [recalculateStreak_dates]; exact List.perm_insertionSort _ _
  · rw [recalculateStreak_streak, recalculateStreak_streak]
  · rw [recalculateStreak_id]
  · rw [recalculateStreak_name]

/-- C5, evaluated on a host in Berlin on 2024-10-28 (day 20024), the day after the clocks
went back, for a habit done yesterday (2024-10-27) with streak 1: marking today gives
streak 2, unmarking gives 0 and not 1, because the day step from 2024-10-28 lands on
2024-10-26. The dates do return to the original ones. On a host on UTC the same calls give
2 and then 1. -/
theorem toggleHabit_round_trip_berlin :
    expectedDate berlin2024 20024 = 20022 ∧
    (toggleHabit berlin2024 1 20024 20023 ⟨[⟨1, "read", [20023], 1⟩], none, none⟩).habits =
      [⟨1, "read", [20023, 20024], 2⟩] ∧
    (toggleHabit berlin2024 1 20024 20023
      (toggleHabit berlin2024 1 20024 20023 ⟨[⟨1, "read", [20023], 1⟩], none, none⟩)).habits =
      [⟨1, "read", [20023], 0⟩] ∧
    (toggleHabit utc 1 20024 20023
      (toggleHabit utc 1 20024 20023 ⟨[⟨1, "read", [20023], 1⟩], none, none⟩)).habits =
      [⟨1, "read", [20023], 1⟩] := by
  refine ⟨by decide, by decide, by decide, by decide⟩

/-- C6: daily rollover. When the last-checked marker differs from `today`, `checkNewDay`
keeps the length and order of the collection and every habit's id, name and
`completedDates`; `currentStreak` becomes 0 if `yesterday` is not in `completedDates`
and is unchanged if it is. -/
theorem checkNewDay_rollover (today yesterday : Int) (s : Store)
    (h : s.lastCheck ≠ some today) :
    (checkNewDay today yesterday s).habits.length = s.habits.length ∧
    ∀ (i : Nat) (h1 : i < s.habits.length)
      (h2 : i < (checkNewDay today yesterday s).habits.length),
      ((checkNewDay today yesterday s).habits[i]).id = (s.habits[i]).id ∧
      ((checkNewDay today yesterday s).habits[i]).name = (s.habits[i]).name ∧
      ((checkNewDay today yesterday s).habits[i]).completedDates =
        (s.habits[i]).completedDates ∧
      (yesterday ∉ (s.habits[i]).completedDates →
        ((checkNewDay today yesterday s).habits[i]).currentStreak = 0) ∧
      (yesterday ∈ (s.habits[i]).completedDates →
        ((checkNewDay today yesterday s).habits[i]).currentStreak =
          (s.habits[i]).currentStreak) := by
  rw [checkNewDay_of_ne _ _ _ h]
  refine ⟨by simp, ?_⟩
  intro i h1 h2
  simp only [List.getElem_map]
  obtain ⟨e1, e2, e3⟩ := dailyRollover_fields yesterday (s.habits[i])
  refine ⟨e1, e2, e3, ?_, ?_⟩
  · intro hy; rw [dailyRollover_streak, if_neg hy]
  · intro hy; rw [dailyRollover_streak, if_pos hy]

/-- Scenario 3 of the spec as an instance of C6: the only completion is three days old. -/
theorem checkNewDay_rollover_witness :
    (checkNewDay 10 9 ⟨[⟨1, "read", [7], 1⟩], none, some 7⟩).habits = [⟨1, "read", [7], 0⟩] ∧
    ((9 : Int) ∉ [(7 : Int)] →
      ((checkNewDay 10 9 ⟨[⟨1, "read", [7], 1⟩], none, some 7⟩).habits[0]).currentStreak = 0) :=
  ⟨by decide,
   ((checkNewDay_rollover 10 9 ⟨[⟨1, "read", [7], 1⟩], none, some 7⟩ (by decide)).2 0
      (by decide) (by decide)).2.2.2.1⟩

/-- C7: `checkNewDay` is idempotent within a day: a second call with the same `today`
returns the store of the first call unchanged (habits, persisted collection and marker). -/
theorem checkNewDay_idempotent (today yesterday yesterday2 : Int) (s : Store) :
    checkNewDay today yesterday2 (checkNewDay today yesterday s) =
      checkNewDay today yesterday s :=
  checkNewDay_of_eq today yesterday2 _ (checkNewDay_lastCheck today yesterday s)

/-- C9: `addHabit` leaves the store unchanged when the input is empty or all white space;
otherwise the collection is the old one followed by one new habit, whose name is the
input without its leading and trailing white space, with no completed dates and streak 0. -/
theorem addHabit_spec (now : Int) (input : String) (s : Store) :
    ((∀ c ∈ input.data, jsIsWhiteSpace c = true) → addHabit now input s = s) ∧
    (¬ (∀ c ∈ input.data, jsIsWhiteSpace c = true) →
      (addHabit now input s).habits = s.habits ++ [⟨now, jsTrim input, [], 0⟩] ∧
      (addHabit now input s).stored = some (addHabit now input s).habits ∧
      (addHabit now input s).lastCheck = s.lastCheck ∧
      jsTrim input ≠ "" ∧
      (∃ pre post : List Char, input.data = pre ++ (jsTrim input).data ++ post ∧
        (∀ c ∈ pre, jsIsWhiteSpace c = true) ∧ (∀ c ∈ post, jsIsWhiteSpace c = true)) ∧
      (∀ c, (jsTrim input).data.head? = some c → jsIsWhiteSpace c = false) ∧
      (∀ c, (jsTrim input).data.getLast? = some c → jsIsWhiteSpace c = false)) := by
  constructor
  · intro h
    unfold addHabit
    simp only
    rw [if_pos ((jsTrim_eq_empty input).2 h)]
  · intro h
    have hne : jsTrim input ≠ "" := fun e => h ((jsTrim_eq_empty input).1 e)
    unfold addHabit saveHabits
    simp only
    rw [if_neg hne]
    refine ⟨rfl, rfl, rfl, hne, ?_, ?_, ?_⟩
    · refine ⟨_, _, jsTrimChars_decompose input.data, ?_, ?_⟩
      · intro c hc; exact (List.mem_takeWhile_imp hc)
      · intro c hc; exact (List.mem_takeWhile_imp (List.mem_reverse.1 hc))
    · intro c hc; exact jsTrimChars_head _ _ hc
    · intro c hc; exact jsTrimChars_getLast _ _ hc

/-- Scenario 5 of the spec as instances of C9. -/
theorem addHabit_spec_witness :
    addHabit 5 "   " Store.empty = Store.empty ∧
    (addHabit 5 " Run " Store.empty).habits = [] ++ [⟨5, jsTrim " Run ", [], 0⟩] ∧
    jsTrim " Run " = "Run" :=
  ⟨(addHabit_spec 5 "   " Store.empty).1 (by decide),
   ((addHabit_spec 5 " Run " Store.empty).2 (by decide)).1,
   by decide⟩

/-- C10: with an id that no habit of the collection has, `toggleHabit` returns the store
unchanged and `deleteHabit` leaves the collection (habits, order, field values) unchanged;
both are total functions, so nothing is raised. -/
theorem unknown_id_noop (tz : TimeZone) (id : Int) (today yesterday : Int) (confirmed : Bool) (s : Store)
    (h : ∀ x ∈ s.habits, x.id ≠ id) :
    toggleHabit tz id today yesterday s = s ∧
    (deleteHabit id confirmed s).habits = s.habits ∧
    (deleteHabit id confirmed s).lastCheck = s.lastCheck ∧
    (s.stored = some s.habits → deleteHabit id confirmed s = s) := by
  have hfilter : s.habits.filter (fun x => decide (x.id ≠ id)) = s.habits := by
    rw [List.filter_eq_self]
    intro x hx
    simpa using h x hx
  have hfind : s.habits.find? (fun x => decide (x.id = id)) = none := by
    rw [List.find?_eq_none]
    intro x hx
    simpa using h x hx
  refine ⟨?_, ?_, ?_, ?_⟩
  · unfold toggleHabit
    rw [hfind]
  · unfold deleteHabit saveHabits
    cases confirmed
    · simp
    · simp only [Bool.not_true, Bool.false_eq_true, if_false, hfilter]
  · unfold deleteHabit saveHabits
    cases confirmed <;> simp
  · intro hst
    unfold deleteHabit saveHabits
    cases confirmed
    · simp
    · simp only [Bool.not_true, Bool.false_eq_true, if_false, hfilter]
      cases s
      simp only at hst
      simp [hst]

/-- Scenario 6 of the spec as an instance of C10. -/
theorem unknown_id_noop_witness :
    toggleHabit utc 2 10 9 ⟨[⟨1, "read", [9], 1⟩], some [⟨1, "read", [9], 1⟩], some 10⟩ =
      ⟨[⟨1, "read", [9], 1⟩], some [⟨1, "read", [9], 1⟩], some 10⟩ ∧
    deleteHabit 2 true ⟨[⟨1, "read", [9], 1⟩], some [⟨1, "read", [9], 1⟩], some 10⟩ =
      ⟨[⟨1, "read", [9], 1⟩], some [⟨1, "read", [9], 1⟩], some 10⟩ :=
  have h := unknown_id_noop utc 2 10 9 true
    ⟨[⟨1, "read", [9], 1⟩], some [⟨1, "read", [9], 1⟩], some 10⟩ (by decide)
  ⟨h.1, h.2.2.2 rfl⟩

/-- C8 as stated fails: two habits added with the same reading of `Date.now()` get the same
id, although the ids were pairwise distinct before and the second name is not blank. -/
theorem addHabit_id_not_fresh :
    ((addHabit 5 "read" Store.empty).habits.map Habit.id).Nodup ∧
    ¬ (∀ c ∈ "walk".data, jsIsWhiteSpace c = true) ∧
    (addHabit 5 "walk" (addHabit 5 "read" Store.empty)).habits =
      [⟨5, "read", [], 0⟩, ⟨5, "walk", [], 0⟩] ∧
    ¬ ((addHabit 5 "walk" (addHabit 5 "read" Store.empty)).habits.map Habit.id).Nodup := by
  decide

/-- C8 amended: for a collection with pairwise distinct ids and a non-blank name, `addHabit`
appends a habit whose id is the creation timestamp `now`; the ids of the result are pairwise
distinct exactly when `now` differs from every id already present, in particular when it is
later than all of them. -/
theorem addHabit_ids (now : Int) (input : String) (s : Store)
    (hids : (s.habits.map Habit.id).Nodup)
    (hname : ¬ (∀ c ∈ input.data, jsIsWhiteSpace c = true)) :
    (addHabit now input s).habits.map Habit.id = s.habits.map Habit.id ++ [now] ∧
    (((addHabit now input s).habits.map Habit.id).Nodup ↔ ∀ h ∈ s.habits, h.id ≠ now) ∧
    ((∀ h ∈ s.habits, h.id < now) → ((addHabit now input s).habits.map Habit.id).Nodup) := by
  have hne : jsTrim input ≠ "" := fun e => hname ((jsTrim_eq_empty input).1 e)
  have hh : (addHabit now input s).habits.map Habit.id = s.habits.map Habit.id ++ [now] := by
    unfold addHabit saveHabits
    simp only
    rw [if_neg hne]
    simp
  have hiff : ((addHabit now input s).habits.map Habit.id).Nodup ↔
      ∀ h ∈ s.habits, h.id ≠ now := by
    rw [hh, List.nodup_append]
    constructor
    · rintro ⟨-, -, hdis⟩ h hmem he
      exact hdis (List.mem_map_of_mem Habit.id hmem) (by simp [he])
    · intro hfresh
      refine ⟨hids, by simp, ?_⟩
      intro a ha hb
      rw [List.mem_singleton] at hb
      obtain ⟨h, hmem, he⟩ := List.mem_map.1 ha
      exact hfresh h hmem (he.trans hb)
  refine ⟨hh, hiff, ?_⟩
  intro hlt
  exact hiff.2 (fun h hmem => ne_of_lt (hlt h hmem))

/-- Instance of the amended C8: a later timestamp gives a fresh id. -/
theorem addHabit_ids_witness :
    ((addHabit 6 "walk" (addHabit 5 "read" Store.empty)).habits.map Habit.id).Nodup :=
  (addHabit_ids 6 "walk" (addHabit 5 "read" Store.empty) (by decide) (by decide)).2.2
    (by decide)

/-- C2 as stated fails, already on a host on UTC: after `read` is completed on day 10 and
`walk` on day 12, with no `checkNewDay` in between, `read` still carries streak 1, while its
`completedDates` `[10]` give streak 0 on day 12. The days of the calls never decrease. -/
theorem currentStreak_drifts :
    CalendarExact utc ∧
    DaysNondecreasing [.add 1 "read", .add 2 "walk", .toggle 1 10, .toggle 2 12] ∧
    lastDay [.add 1 "read", .add 2 "walk", .toggle 1 10, .toggle 2 12] = some 12 ∧
    (run utc Store.empty [.add 1 "read", .add 2 "walk", .toggle 1 10, .toggle 2 12]).habits =
      [⟨1, "read", [10], 1⟩, ⟨2, "walk", [12], 1⟩] ∧
    ¬ NoDrift ⟨1, "read", [10], 1⟩ 12 ∧
    NoDrift ⟨1, "read", [10], 0⟩ 12 := by
  refine ⟨calendarExact_of_fixed 0, by unfold DaysNondecreasing; decide, by decide,
    by decide, ?_, ?_⟩
  · rintro ⟨h1, -⟩
    have := h1 0 (by decide)
    revert this
    decide
  · refine ⟨fun j hj => absurd hj (Nat.not_lt_zero _), ?_⟩
    decide

/-- C2 amended: on a host where the day step of `recalculateStreak` is the previous
calendar day (every host with a fixed UTC offset), in every state reached from the empty store
by calls of `addHabit`, `toggleHabit`, `deleteHabit` and `checkNewDay` in which `today` never
decreases, `yesterday` is the day before `today`, and every `toggleHabit` is made on a day
for which `checkNewDay` has already run, every habit's `currentStreak` is the number of
consecutive days, ending at `today` if that is completed and at the day before otherwise,
that are all in its `completedDates`. -/
theorem currentStreak_no_drift (tz : TimeZone) (hcal : CalendarExact tz) (ops : List Op)
    (hd : Disciplined none ops) :
    DaysNondecreasing ops ∧
    ∀ h ∈ (run tz Store.empty ops).habits,
      h.completedDates.Nodup ∧
      (∀ today, lastDay ops = some today → NoDrift h today) ∧
      (lastDay ops = none → ∀ today, NoDrift h today) := by
  refine ⟨(disciplined_days ops none hd).2, ?_⟩
  intro h hh
  have hset := settled_run hcal ops Store.empty
    (fun g hg => absurd hg (List.not_mem_nil _)) hd h hh
  have hlast := @disciplined_lastCheck tz ops Store.empty hd
  refine ⟨hset.1, ?_, ?_⟩
  · intro today ht
    rw [hlast, ht] at hset
    exact hset.2.2
  · intro hn today
    rw [hlast, hn] at hset
    have h2 : h.completedDates = [] ∧ h.currentStreak = 0 := hset.2
    unfold NoDrift IsRunLength
    rw [h2.1, h2.2]
    simp

/-- Instance of the amended C2 on a host on UTC: completed on days 9 and 10, then day 10
taken back; the streak is 1 again, the run ending at day 9. -/
theorem currentStreak_no_drift_witness :
    (run utc Store.empty [.add 1 "read", .newDay 9, .toggle 1 9, .newDay 10, .toggle 1 10,
      .toggle 1 10]).habits = [⟨1, "read", [9], 1⟩] ∧
    ∀ h ∈ (run utc Store.empty [.add 1 "read", .newDay 9, .toggle 1 9, .newDay 10, .toggle 1 10,
      .toggle 1 10]).habits, NoDrift h 10 :=
  ⟨by decide,
   fun h hh => ((currentStreak_no_drift utc (calendarExact_of_fixed 0)
      [.add 1 "read", .newDay 9, .toggle 1 9, .newDay 10, .toggle 1 10, .toggle 1 10]
      (by simp [Disciplined])).2 h hh).2.1 10 (by decide)⟩

/-- The condition on the host in the amended C2 cannot be dropped: in Berlin, with
`checkNewDay` run before the toggles of each day, marking 2024-10-27 and then marking and
unmarking 2024-10-28 ends with `completedDates` `[2024-10-27]` and streak 0, where the run
ending the day before has length 1. This is the defect shown for C1 and C5. -/
theorem currentStreak_berlin_fall_back :
    Disciplined none [.add 1 "read", .newDay 20023, .toggle 1 20023, .newDay 20024,
      .toggle 1 20024, .toggle 1 20024] ∧
    (run berlin2024 Store.empty [.add 1 "read", .newDay 20023, .toggle 1 20023, .newDay 20024,
      .toggle 1 20024, .toggle 1 20024]).habits = [⟨1, "read", [20023], 0⟩] ∧
    ¬ NoDrift ⟨1, "read", [20023], 0⟩ 20024 ∧
    NoDrift ⟨1, "read", [20023], 1⟩ 20024 := by
  refine ⟨by simp [Disciplined], by decide, ?_, ?_⟩
  · rintro ⟨-, h2⟩
    revert h2
    decide
  · refine ⟨?_, by decide⟩
    intro j hj
    have hj1 : j < 1 := hj
    have hj0 : j = 0 := by omega
    subst hj0
    decide

end HabitTracker
